import Mathlib

/-!
Verification of the dynamic exclusivity-tracking runtime
(`stdlib/public/runtime/Exclusivity.cpp`).

The runtime keeps, per thread, an intrusive singly-linked list of `Access`
records (the access set), and each task stores a two-word saved span
`(TBegin, TEnd)`.  We embed the heap of access records as a total function
from record identifiers to record contents; a null pointer is `Option.none`.
The C++ code packs the next pointer and the action code into the single word
`NextAndAction`; since the two cover disjoint bit ranges (`ActionMask` and
`NextMask = ~ActionMask`), the embedding keeps them as the two separate
fields `next` and `action`, and `setNext` preserves `action` exactly as the
masked update does.

List traversals in the source are `for`/`while` loops over `getNext()`; they
are embedded as fuel-indexed recursions.  A result is:
  * `ok`        - the operation returned normally,
  * `conflict`  - `reportExclusivityConflict` + `fatalError` fired,
  * `ub`        - the source dereferenced a null pointer or reached
                  `swift_unreachable`,
  * `outOfFuel` - the fuel bound was too small (never happens when the fuel
                  is at least the length of the list being walked).
-/

namespace SwiftExclusivity

/-- The access action carried in the low bits of `NextAndAction`
(`ExclusivityFlags::Read` / `ExclusivityFlags::Modify`). -/
inductive Action where
  | read
  | modify
deriving DecidableEq, Repr

/-- Identifier of an `Access` record (a non-null record address). -/
abbrev RecId := Nat

/-- One tracked access (`struct Access`): the storage `Pointer` (null encoded
as `none`), the diagnostic `PC`, and the packed `NextAndAction` word, kept
here as the separate fields `next` (null encoded as `none`) and `action`. -/
structure Access where
  Pointer : Option Nat
  PC : Nat
  next : Option RecId
  action : Action
deriving DecidableEq, Repr

/-- The heap of compiler-allocated access records. -/
abbrev Heap := RecId → Access

/-- Store record contents `a` at address `i`. -/
def setRec (h : Heap) (i : RecId) (a : Access) : Heap :=
  fun j => if j = i then a else h j

/-- `Access::setNext`: update the next link, preserving the action bits. -/
def setNext (h : Heap) (i : RecId) (n : Option RecId) : Heap :=
  setRec h i { h i with next := n }

/-- Store a new value into the `Pointer` field of record `i`
(`access->Pointer = ...` in `swift_beginAccess`). -/
def updatePointer (h : Heap) (i : RecId) (p : Option Nat) : Heap :=
  setRec h i { h i with Pointer := p }

/-- The store performed by `Access::initialize(pc, pointer, next, action)`. -/
def Access.initRecord (pc : Nat) (pointer : Nat) (next : Option RecId)
    (action : Action) : Access :=
  { Pointer := some pointer, PC := pc, next := next, action := action }

/-- Modelled from the spec: `ExclusivityFlags` (declared in a runtime header
outside the sample) packs the access action (low `ActionMask` bits) with a
`Tracking` bit; `getAccessAction` extracts the action and `isTracking` tests
the tracking bit. -/
structure ExclusivityFlags where
  action : Action
  tracking : Bool
deriving DecidableEq, Repr

/-- Modelled from the spec: `getAccessAction(flags)` extracts the action. -/
def getAccessAction (f : ExclusivityFlags) : Action := f.action

/-- Modelled from the spec: `isTracking(flags)` tests the tracking bit. -/
def isTracking (f : ExclusivityFlags) : Bool := f.tracking

/-- Outcome of running an embedded runtime operation. -/
inductive RunResult (α : Type) where
  | ok (a : α)
  | conflict
  | ub
  | outOfFuel
deriving DecidableEq, Repr

/-- The two pointer-sized words reserved in each task
(`SwiftTaskThreadLocalContext::state`): the saved span `(TBegin, TEnd)`. -/
structure TaskCtx where
  TBegin : Option RecId
  TEnd : Option RecId
deriving DecidableEq, Repr

/-- `chainSeg h o l o'` holds when, starting from the pointer `o`, following
the `next` links visits exactly the records in `l` and then reaches the
pointer `o'`.  `chainSeg h o l none` says `o` heads a well-formed,
null-terminated list with members `l`. -/
def chainSeg (h : Heap) : Option RecId → List RecId → Option RecId → Prop
  | o, [], o' => o = o'
  | o, i :: rest, o' => o = some i ∧ chainSeg h (h i).next rest o'

def chainSegDec (h : Heap) :
    (o : Option RecId) → (l : List RecId) → (o' : Option RecId) →
    Decidable (chainSeg h o l o')
  | o, [], o' => inferInstanceAs (Decidable (o = o'))
  | o, i :: rest, o' =>
    match chainSegDec h (h i).next rest o' with
    | isTrue hrest =>
      if ho : o = some i then isTrue ⟨ho, hrest⟩
      else isFalse (fun hc => ho hc.1)
    | isFalse hrest => isFalse (fun hc => hrest hc.2)

instance (h : Heap) (o : Option RecId) (l : List RecId) (o' : Option RecId) :
    Decidable (chainSeg h o l o') := chainSegDec h o l o'

/-- The conflict test applied to one existing record `c` by the scan loop in
`AccessSet::insert`: same storage pointer and not both accesses reads. -/
def conflictsAt (h : Heap) (pointer : Nat) (action : Action) (c : RecId) : Prop :=
  (h c).Pointer = some pointer ∧
    ¬(action = Action.read ∧ (h c).action = Action.read)

instance (h : Heap) (pointer : Nat) (action : Action) (c : RecId) :
    Decidable (conflictsAt h pointer action c) := by
  unfold conflictsAt; infer_instance

/-- The scan loop of `AccessSet::insert`: walk from `cur`, skipping records
with a different `Pointer` and read/read pairs; report `true` at the first
conflicting record, `false` when the end of the list is reached. -/
def scanConflict (h : Heap) (pointer : Nat) (action : Action) :
    Nat → Option RecId → RunResult Bool
  | _, none => RunResult.ok false
  | 0, some _ => RunResult.outOfFuel
  | fuel+1, some cur =>
    if (h cur).Pointer ≠ some pointer then
      scanConflict h pointer action fuel (h cur).next
    else if action = Action.read ∧ (h cur).action = Action.read then
      scanConflict h pointer action fuel (h cur).next
    else
      RunResult.ok true

/-- `AccessSet::insert(access, pc, pointer, flags)`.  Returns the new heap,
the new head, and the C++ return value (`true` iff the record was added);
`conflict` models `reportExclusivityConflict` followed by `fatalError`. -/
def AccessSet.insert (h : Heap) (H : Option RecId) (access : RecId) (pc : Nat)
    (pointer : Nat) (flags : ExclusivityFlags) (fuel : Nat) :
    RunResult (Heap × Option RecId × Bool) :=
  match scanConflict h pointer (getAccessAction flags) fuel H with
  | RunResult.ok true => RunResult.conflict
  | RunResult.ok false =>
    if ¬ (isTracking flags = true) then RunResult.ok (h, H, false)
    else
      RunResult.ok
        (setRec h access (Access.initRecord pc pointer H (getAccessAction flags)),
         some access, true)
  | RunResult.conflict => RunResult.conflict
  | RunResult.ub => RunResult.ub
  | RunResult.outOfFuel => RunResult.outOfFuel

/-- The walking loop of `AccessSet::remove`: `last` trails `cur`; when `cur`
is the record being removed, redirect `last`'s link past it.  Reaching the
end of the list is `swift_unreachable("access not found in set")`. -/
def removeLoop (h : Heap) (access : RecId) :
    Nat → RecId → Option RecId → RunResult Heap
  | _, _, none => RunResult.ub
  | 0, _, some _ => RunResult.outOfFuel
  | fuel+1, last, some cur =>
    if cur = access then RunResult.ok (setNext h last (h cur).next)
    else removeLoop h access fuel cur (h cur).next

/-- `AccessSet::remove(access)`.  Fast path when the record is the head;
otherwise walk to find the predecessor.  A null head is the failed
`assert(Head && "removal from empty AccessSet")` / a null dereference. -/
def AccessSet.remove (h : Heap) (H : Option RecId) (access : RecId)
    (fuel : Nat) : RunResult (Heap × Option RecId) :=
  match H with
  | none => RunResult.ub
  | some cur =>
    if cur = access then RunResult.ok (h, (h cur).next)
    else
      match removeLoop h access fuel cur (h cur).next with
      | RunResult.ok h' => RunResult.ok (h', H)
      | RunResult.conflict => RunResult.conflict
      | RunResult.ub => RunResult.ub
      | RunResult.outOfFuel => RunResult.outOfFuel

/-- The loop of `AccessSet::findParentAccess`: `last` trails `cur`; return
`last` when `cur` is the child, null when the end is reached. -/
def findParentLoop (h : Heap) (child : RecId) :
    Nat → RecId → Option RecId → RunResult (Option RecId)
  | _, _, none => RunResult.ok none
  | 0, _, some _ => RunResult.outOfFuel
  | fuel+1, last, some cur =>
    if cur = child then RunResult.ok (some last)
    else findParentLoop h child fuel cur (h cur).next

/-- `AccessSet::findParentAccess(childAccess)`.  Note that the source starts
with `cur = Head; last = cur; for (cur = cur->getNext(); ...)`, so a null
head is dereferenced before any check: the empty set is `ub`. -/
def AccessSet.findParentAccess (h : Heap) (H : Option RecId) (child : RecId)
    (fuel : Nat) : RunResult (Option RecId) :=
  match H with
  | none => RunResult.ub
  | some hd => findParentLoop h child fuel hd (h hd).next

/-- The loop of `AccessSet::getTail` on a non-null head: follow `next` links
until the last record. -/
def getTailLoop (h : Heap) : Nat → RecId → RunResult RecId
  | 0, _ => RunResult.outOfFuel
  | fuel+1, cur =>
    match (h cur).next with
    | none => RunResult.ok cur
    | some nxt => getTailLoop h fuel nxt

/-- `swift_beginAccess(pointer, buffer, flags, pc)`.  `disabled` is the
process-wide `_swift_disableExclusivityChecking` flag, `pcArg` the `pc`
argument (null as `none`), and `retAddr` the caller return address the
runtime substitutes for a null `pc`.  `pointer` is non-null (the source
asserts it). -/
def swift_beginAccess (disabled : Bool) (h : Heap) (H : Option RecId)
    (pointer : Nat) (buffer : RecId) (flags : ExclusivityFlags)
    (pcArg : Option Nat) (retAddr : Nat) (fuel : Nat) :
    RunResult (Heap × Option RecId) :=
  if disabled then RunResult.ok (updatePointer h buffer none, H)
  else
    match AccessSet.insert h H buffer (pcArg.getD retAddr) pointer flags fuel with
    | RunResult.ok (h', H', true) => RunResult.ok (h', H')
    | RunResult.ok (h', H', false) =>
      RunResult.ok (updatePointer h' buffer none, H')
    | RunResult.conflict => RunResult.conflict
    | RunResult.ub => RunResult.ub
    | RunResult.outOfFuel => RunResult.outOfFuel

/-- `swift_endAccess(buffer)`: return immediately when the buffer's
`Pointer` field is null, otherwise remove the record from the set. -/
def swift_endAccess (h : Heap) (H : Option RecId) (buffer : RecId)
    (fuel : Nat) : RunResult (Heap × Option RecId) :=
  match (h buffer).Pointer with
  | none => RunResult.ok (h, H)
  | some _ => AccessSet.remove h H buffer fuel

/-- `swift_task_enterThreadLocalContext` (push).  `H` is the thread's current
access-set head; the result is the new heap, the new thread head, and the
task's new saved span. -/
def swift_task_enterThreadLocalContext (h : Heap) (H : Option RecId)
    (t : TaskCtx) : RunResult (Heap × Option RecId × TaskCtx) :=
  match t.TBegin with
  | none =>
    match H with
    | none => RunResult.ok (h, H, t)
    | some _ => RunResult.ok (h, H, { t with TBegin := H })
  | some b =>
    match H with
    | none => RunResult.ok (h, some b, ⟨none, none⟩)
    | some _ =>
      match t.TEnd with
      | none => RunResult.ub
      | some e => RunResult.ok (setNext h e H, some b, ⟨H, none⟩)

/-- `swift_task_exitThreadLocalContext` (pop). -/
def swift_task_exitThreadLocalContext (h : Heap) (H : Option RecId)
    (t : TaskCtx) (fuel : Nat) : RunResult (Heap × Option RecId × TaskCtx) :=
  match t.TBegin with
  | none =>
    match H with
    | none => RunResult.ok (h, H, t)
    | some hd =>
      match getTailLoop h fuel hd with
      | RunResult.ok newTail => RunResult.ok (h, none, ⟨H, some newTail⟩)
      | RunResult.conflict => RunResult.conflict
      | RunResult.ub => RunResult.ub
      | RunResult.outOfFuel => RunResult.outOfFuel
  | some oldHead =>
    if H = some oldHead then RunResult.ok (h, H, ⟨none, none⟩)
    else
      match AccessSet.findParentAccess h H oldHead fuel with
      | RunResult.ok (some newEnd) =>
        RunResult.ok (setNext h newEnd none, some oldHead, ⟨H, some newEnd⟩)
      | RunResult.ok none => RunResult.ub
      | RunResult.conflict => RunResult.conflict
      | RunResult.ub => RunResult.ub
      | RunResult.outOfFuel => RunResult.outOfFuel

/-- Well-formedness of a task's saved span: either both words are null and
the span is empty, or `TBegin` heads and `TEnd` ends the null-terminated
chain `tl` of the task's saved accesses. -/
def taskWF (h : Heap) (t : TaskCtx) (tl : List RecId) : Prop :=
  (tl = [] ∧ t.TBegin = none ∧ t.TEnd = none) ∨
  (tl ≠ [] ∧ t.TBegin = tl.head? ∧ t.TEnd = tl.getLast? ∧
    chainSeg h t.TBegin tl none)

instance (h : Heap) (t : TaskCtx) (tl : List RecId) :
    Decidable (taskWF h t tl) := by
  unfold taskWF; infer_instance

/-! ### Heap update lemmas -/

theorem setRec_same (h : Heap) (i : RecId) (a : Access) : setRec h i a i = a := by
  simp [setRec]

theorem setRec_other (h : Heap) (i j : RecId) (a : Access) (hij : j ≠ i) :
    setRec h i a j = h j := by
  simp [setRec, hij]

theorem setNext_same (h : Heap) (i : RecId) (n : Option RecId) :
    setNext h i n i = { h i with next := n } := by
  simp [setNext, setRec]

theorem setNext_other (h : Heap) (i j : RecId) (n : Option RecId) (hij : j ≠ i) :
    setNext h i n j = h j := by
  simp [setNext, setRec, hij]

theorem setNext_setNext (h : Heap) (i : RecId) (x y : Option RecId) :
    setNext (setNext h i x) i y = setNext h i y := by
  funext j
  by_cases hj : j = i <;> simp [setNext, setRec, hj]

theorem setNext_cancel (h : Heap) (i : RecId) :
    setNext h i (h i).next = h := by
  funext j
  by_cases hj : j = i <;> simp [setNext, setRec, hj]

/-! ### List last-element helpers -/

theorem getLastD_cons_eq_getLast? (i : RecId) (l : List RecId) :
    (i :: l).getLast? = some (l.getLastD i) := by
  induction l generalizing i with
  | nil => rfl
  | cons j rest ih =>
    rw [List.getLast?_cons_cons, List.getLastD_cons]
    exact ih j

theorem exists_getLast?_of_ne_nil {l : List RecId} (hne : l ≠ []) :
    ∃ e, l.getLast? = some e := by
  cases l with
  | nil => exact absurd rfl hne
  | cons i rest => exact ⟨rest.getLastD i, getLastD_cons_eq_getLast? i rest⟩

/-! ### Chain segment lemmas -/

theorem chainSeg_nil {h : Heap} {o o' : Option RecId} :
    chainSeg h o [] o' ↔ o = o' := Iff.rfl

theorem chainSeg_cons {h : Heap} {o o' : Option RecId} {i : RecId}
    {l : List RecId} :
    chainSeg h o (i :: l) o' ↔ o = some i ∧ chainSeg h (h i).next l o' :=
  Iff.rfl

theorem chainSeg_none_nil {h : Heap} {l : List RecId} {o' : Option RecId}
    (hc : chainSeg h none l o') : l = [] ∧ o' = none := by
  cases l with
  | nil => exact ⟨rfl, (chainSeg_nil.mp hc).symm⟩
  | cons i rest => exact absurd hc.1 (by simp)

theorem chainSeg_append {h : Heap} (l1 l2 : List RecId) (o o' : Option RecId) :
    chainSeg h o (l1 ++ l2) o' ↔
      ∃ m, chainSeg h o l1 m ∧ chainSeg h m l2 o' := by
  induction l1 generalizing o with
  | nil =>
    simp only [List.nil_append]
    constructor
    · intro hc
      exact ⟨o, rfl, hc⟩
    · rintro ⟨m, hm, hc⟩
      have hom : o = m := hm
      subst hom
      exact hc
  | cons i rest ih =>
    simp only [List.cons_append]
    constructor
    · rintro ⟨ho, hc⟩
      obtain ⟨m, h1, h2⟩ := (ih _).mp hc
      exact ⟨m, ⟨ho, h1⟩, h2⟩
    · rintro ⟨m, ⟨ho, h1⟩, h2⟩
      exact ⟨ho, (ih _).mpr ⟨m, h1, h2⟩⟩

theorem chainSeg_none_unique {h : Heap} :
    ∀ (l l' : List RecId) (o : Option RecId),
      chainSeg h o l none → chainSeg h o l' none → l = l'
  | [], [], _, _, _ => rfl
  | [], i' :: rest', o, h1, h2 => by
    have ho : o = none := h1
    have ho' : o = some i' := h2.1
    simp [ho] at ho'
  | i :: rest, [], o, h1, h2 => by
    have ho : o = some i := h1.1
    have ho' : o = none := h2
    simp [ho'] at ho
  | i :: rest, i' :: rest', o, h1, h2 => by
    have ho : o = some i := h1.1
    have ho' : o = some i' := h2.1
    rw [ho] at ho'
    injection ho' with hii
    subst hii
    rw [chainSeg_none_unique rest rest' (h i).next h1.2 h2.2]

theorem chainSeg_nodup {h : Heap} :
    ∀ (l : List RecId) (o : Option RecId), chainSeg h o l none → l.Nodup
  | [], _, _ => List.nodup_nil
  | i :: rest, o, hc => by
    have hrest : chainSeg h (h i).next rest none := hc.2
    refine List.nodup_cons.mpr ⟨?_, chainSeg_nodup rest _ hrest⟩
    intro hmem
    obtain ⟨s, t, rfl⟩ := List.append_of_mem hmem
    obtain ⟨m, hs, ht⟩ := (chainSeg_append s (i :: t) _ none).mp hrest
    have hm : m = some i := ht.1
    subst hm
    have hwhole : chainSeg h (some i) (i :: (s ++ i :: t)) none := ⟨rfl, hrest⟩
    have heq := chainSeg_none_unique _ _ _ hwhole ht
    have hlen := congrArg List.length heq
    simp [List.length_append] at hlen
    omega

theorem chainSeg_congr {h h' : Heap} :
    ∀ (l : List RecId) (o o' : Option RecId),
      (∀ i ∈ l, h' i = h i) → chainSeg h o l o' → chainSeg h' o l o'
  | [], _, _, _, hc => hc
  | i :: rest, o, o', hag, hc => by
    refine ⟨hc.1, ?_⟩
    have hi : h' i = h i := hag i (List.mem_cons_self i rest)
    rw [hi]
    exact chainSeg_congr rest _ _
      (fun j hj => hag j (List.mem_cons_of_mem _ hj)) hc.2

theorem chainSeg_last_next {h : Heap} :
    ∀ (l : List RecId) (o o' : Option RecId) (e : RecId),
      chainSeg h o l o' → l.getLast? = some e → (h e).next = o'
  | [], _, _, _, _, hl => by simp at hl
  | [i], o, o', e, hc, hl => by
    have hie : i = e := by simpa using hl
    subst hie
    exact hc.2
  | i :: j :: rest, o, o', e, hc, hl => by
    have hl' : (j :: rest).getLast? = some e := by
      rw [List.getLast?_cons_cons] at hl
      exact hl
    exact chainSeg_last_next (j :: rest) _ _ e hc.2 hl'

theorem chainSeg_setNext_last {h : Heap} :
    ∀ (l : List RecId) (o o' : Option RecId) (e : RecId) (x : Option RecId),
      chainSeg h o l o' → l.getLast? = some e → l.Nodup →
      chainSeg (setNext h e x) o l x
  | [], _, _, _, _, _, hl, _ => by simp at hl
  | [i], o, o', e, x, hc, hl, _ => by
    have hie : i = e := by simpa using hl
    subst hie
    refine ⟨hc.1, ?_⟩
    show (setNext h i x i).next = x
    rw [setNext_same]
  | i :: j :: rest, o, o', e, x, hc, hl, hnd => by
    have hl' : (j :: rest).getLast? = some e := by
      rw [List.getLast?_cons_cons] at hl
      exact hl
    have hmem : e ∈ j :: rest := by
      rw [getLastD_cons_eq_getLast?] at hl'
      injection hl' with he
      exact he ▸ List.getLastD_mem_cons rest j
    have hie : i ≠ e := by
      intro hh
      exact (List.nodup_cons.mp hnd).1 (hh ▸ hmem)
    refine ⟨hc.1, ?_⟩
    rw [show setNext h e x i = h i from setNext_other h e i x hie]
    exact chainSeg_setNext_last (j :: rest) _ _ e x hc.2 hl'
      (List.nodup_cons.mp hnd).2

/-! ### Loop lemmas: the fuel-indexed walks succeed on well-formed chains -/

theorem getTailLoop_ok {h : Heap} :
    ∀ (l : List RecId) (b : RecId) (fuel : Nat),
      chainSeg h (some b) (b :: l) none → (b :: l).length ≤ fuel →
      getTailLoop h fuel b = RunResult.ok (l.getLastD b)
  | [], b, fuel, hc, hf => by
    have hnext : (h b).next = none := hc.2
    obtain ⟨f, rfl⟩ : ∃ f, fuel = f + 1 := ⟨fuel - 1, by simp at hf; omega⟩
    simp [getTailLoop, hnext, List.getLastD]
  | j :: rest, b, fuel, hc, hf => by
    have hnext : (h b).next = some j := hc.2.1
    obtain ⟨f, rfl⟩ : ∃ f, fuel = f + 1 := ⟨fuel - 1, by simp at hf; omega⟩
    have hc' : chainSeg h (some j) (j :: rest) none := by
      have := hc.2
      rwa [hnext] at this
    rw [show (j :: rest).getLastD b = rest.getLastD j from List.getLastD_cons _ _ _]
    simpa [getTailLoop, hnext] using
      getTailLoop_ok rest j f hc' (by simp at hf ⊢; omega)

theorem findParentLoop_hit {h : Heap} {c : RecId} :
    ∀ (l : List RecId) (last : RecId) (cur : Option RecId) (fuel : Nat),
      chainSeg h cur l (some c) → c ∉ l → l.length + 1 ≤ fuel →
      findParentLoop h c fuel last cur = RunResult.ok (some (l.getLastD last))
  | [], last, cur, fuel, hc, _, hf => by
    have hcur : cur = some c := hc
    subst hcur
    obtain ⟨f, rfl⟩ : ∃ f, fuel = f + 1 := ⟨fuel - 1, by omega⟩
    simp [findParentLoop, List.getLastD]
  | i :: rest, last, cur, fuel, hc, hnotin, hf => by
    have hcur : cur = some i := hc.1
    subst hcur
    obtain ⟨f, rfl⟩ : ∃ f, fuel = f + 1 := ⟨fuel - 1, by simp at hf; omega⟩
    have hne : i ≠ c := fun hh => hnotin (hh ▸ List.mem_cons_self i rest)
    rw [show (i :: rest).getLastD last = rest.getLastD i from
      List.getLastD_cons _ _ _]
    simpa [findParentLoop, hne] using
      findParentLoop_hit rest i (h i).next f hc.2
        (fun hm => hnotin (List.mem_cons_of_mem _ hm))
        (by simp at hf ⊢; omega)

theorem findParentLoop_miss {h : Heap} {c : RecId} :
    ∀ (l : List RecId) (last : RecId) (cur : Option RecId) (fuel : Nat),
      chainSeg h cur l none → c ∉ l → l.length ≤ fuel →
      findParentLoop h c fuel last cur = RunResult.ok none
  | [], last, cur, fuel, hc, _, _ => by
    have hcur : cur = none := hc
    subst hcur
    cases fuel <;> simp [findParentLoop]
  | i :: rest, last, cur, fuel, hc, hnotin, hf => by
    have hcur : cur = some i := hc.1
    subst hcur
    obtain ⟨f, rfl⟩ : ∃ f, fuel = f + 1 := ⟨fuel - 1, by simp at hf; omega⟩
    have hne : i ≠ c := fun hh => hnotin (hh ▸ List.mem_cons_self i rest)
    simpa [findParentLoop, hne] using
      findParentLoop_miss rest i (h i).next f hc.2
        (fun hm => hnotin (List.mem_cons_of_mem _ hm))
        (by simp at hf ⊢; omega)

theorem removeLoop_hit {h : Heap} {c : RecId} :
    ∀ (l : List RecId) (last : RecId) (cur : Option RecId) (fuel : Nat),
      chainSeg h cur l (some c) → c ∉ l → l.length + 1 ≤ fuel →
      removeLoop h c fuel last cur =
        RunResult.ok (setNext h (l.getLastD last) (h c).next)
  | [], last, cur, fuel, hc, _, hf => by
    have hcur : cur = some c := hc
    subst hcur
    obtain ⟨f, rfl⟩ : ∃ f, fuel = f + 1 := ⟨fuel - 1, by omega⟩
    simp [removeLoop, List.getLastD]
  | i :: rest, last, cur, fuel, hc, hnotin, hf => by
    have hcur : cur = some i := hc.1
    subst hcur
    obtain ⟨f, rfl⟩ : ∃ f, fuel = f + 1 := ⟨fuel - 1, by simp at hf; omega⟩
    have hne : i ≠ c := fun hh => hnotin (hh ▸ List.mem_cons_self i rest)
    rw [show (i :: rest).getLastD last = rest.getLastD i from
      List.getLastD_cons _ _ _]
    simpa [removeLoop, hne] using
      removeLoop_hit rest i (h i).next f hc.2
        (fun hm => hnotin (List.mem_cons_of_mem _ hm))
        (by simp at hf ⊢; omega)

theorem scanConflict_eq {h : Heap} {pointer : Nat} {action : Action} :
    ∀ (l : List RecId) (o : Option RecId) (fuel : Nat),
      chainSeg h o l none → l.length ≤ fuel →
      scanConflict h pointer action fuel o =
        RunResult.ok (l.any fun c => decide (conflictsAt h pointer action c))
  | [], o, fuel, hc, _ => by
    have ho : o = none := hc
    subst ho
    cases fuel <;> simp [scanConflict]
  | i :: rest, o, fuel, hc, hf => by
    have ho : o = some i := hc.1
    subst ho
    obtain ⟨f, rfl⟩ : ∃ f, fuel = f + 1 := ⟨fuel - 1, by simp at hf; omega⟩
    have htail := @scanConflict_eq h pointer action rest (h i).next f hc.2
      (by simp at hf ⊢; omega)
    by_cases hp : (h i).Pointer = some pointer
    · by_cases hr : action = Action.read ∧ (h i).action = Action.read
      · have hcf : ¬ conflictsAt h pointer action i := fun hcc => hcc.2 hr
        simp only [scanConflict, if_neg (not_not_intro hp), if_pos hr]
        rw [htail]
        simp [List.any_cons, hcf]
      · have hcf : conflictsAt h pointer action i := ⟨hp, hr⟩
        simp only [scanConflict, if_neg (not_not_intro hp), if_neg hr]
        simp [List.any_cons, hcf]
    · have hcf : ¬ conflictsAt h pointer action i := fun hcc => hp hcc.1
      simp only [scanConflict, if_pos hp]
      rw [htail]
      simp [List.any_cons, hcf]

theorem chainSeg_next_head {h : Heap} {o : Option RecId} {l : List RecId}
    (hc : chainSeg h o l none) : o = l.head? := by
  cases l with
  | nil => exact hc
  | cons i rest => exact hc.1

theorem nodup_middle_split {hl l1 l2 : List RecId} {a : RecId}
    (hnd : hl.Nodup) (hsplit : hl = l1 ++ a :: l2) : a ∉ l1 ∧ a ∉ l2 := by
  subst hsplit
  obtain ⟨hnd1, hnd2, hdisj⟩ := List.nodup_append.mp hnd
  exact ⟨fun hh => hdisj hh (List.mem_cons_self a l2),
    fun hh => (List.nodup_cons.mp hnd2).1 hh⟩

/-- Master specification of `AccessSet::remove` under the precondition that
the record is on the set: the record is unlinked, the remaining records keep
their relative order, and every surviving record keeps its `Pointer`, `PC`
and action (only the predecessor's next link is rewritten). -/
theorem remove_master (h : Heap) (H : Option RecId) (hl : List RecId)
    (a : RecId) (fuel : Nat)
    (hch : chainSeg h H hl none) (hmem : a ∈ hl) (hfuel : hl.length ≤ fuel) :
    ∃ l1 l2 h',
      hl = l1 ++ a :: l2 ∧ a ∉ l1 ∧ a ∉ l2 ∧
      AccessSet.remove h H a fuel = RunResult.ok (h', (l1 ++ l2).head?) ∧
      chainSeg h' ((l1 ++ l2).head?) (l1 ++ l2) none ∧
      (l1 = [] → h' = h) ∧
      (∀ p, l1.getLast? = some p →
        h' = setNext h p l2.head? ∧ ∀ r, r ≠ p → h' r = h r) ∧
      (∀ r, (h' r).Pointer = (h r).Pointer ∧ (h' r).PC = (h r).PC ∧
        (h' r).action = (h r).action) := by
  have hnd := chainSeg_nodup hl H hch
  obtain ⟨l1, l2, rfl⟩ := List.append_of_mem hmem
  obtain ⟨hal1, hal2⟩ := nodup_middle_split hnd rfl
  obtain ⟨m, hs, ht⟩ := (chainSeg_append l1 (a :: l2) H none).mp hch
  have hm : m = some a := ht.1
  subst hm
  have ht2 : chainSeg h (h a).next l2 none := ht.2
  have hnext : (h a).next = l2.head? := chainSeg_next_head ht2
  cases l1 with
  | nil =>
    have hH : H = some a := hs
    subst hH
    refine ⟨[], l2, h, rfl, hal1, hal2, ?_, ?_, fun _ => rfl, ?_, ?_⟩
    · simp [AccessSet.remove, hnext]
    · simpa using (hnext ▸ ht2)
    · intro p hp
      simp at hp
    · intro r
      exact ⟨rfl, rfl, rfl⟩
  | cons h0 l1' =>
    have hH : H = some h0 := hs.1
    subst hH
    have hs2 : chainSeg h (h h0).next l1' (some a) := hs.2
    have hah0 : h0 ≠ a := fun hh => hal1 (hh ▸ List.mem_cons_self h0 l1')
    have hal1' : a ∉ l1' := fun hh => hal1 (List.mem_cons_of_mem _ hh)
    have hfuel' : l1'.length + 1 ≤ fuel := by
      simp [List.length_append] at hfuel
      omega
    have hloop := @removeLoop_hit h a l1' h0 (h h0).next fuel hs2 hal1' hfuel'
    set p := l1'.getLastD h0 with hp
    have hpmem : p ∈ h0 :: l1' := List.getLastD_mem_cons l1' h0
    have hplast : (h0 :: l1').getLast? = some p := getLastD_cons_eq_getLast? h0 l1'
    have hpa : p ≠ a := fun hh => hal1 (hh ▸ hpmem)
    have hremove : AccessSet.remove h (some h0) a fuel =
        RunResult.ok (setNext h p l2.head?, some h0) := by
      simp only [AccessSet.remove, if_neg hah0, hloop, hnext]
    have hnd1 : (h0 :: l1').Nodup := (List.nodup_append.mp hnd).1
    have hdisj12 : ∀ x ∈ h0 :: l1', x ∉ l2 := by
      intro x hx hx2
      exact (List.nodup_append.mp hnd).2.2 hx (List.mem_cons_of_mem _ hx2)
    have hchain1 : chainSeg (setNext h p l2.head?) (some h0) (h0 :: l1')
        l2.head? :=
      chainSeg_setNext_last (h0 :: l1') (some h0) (some a) p l2.head? hs
        hplast hnd1
    have hchain2 : chainSeg (setNext h p l2.head?) l2.head? l2 none := by
      refine chainSeg_congr l2 _ _ ?_ (hnext ▸ ht2)
      intro i hi
      exact setNext_other h p i l2.head? (fun hh => hdisj12 p hpmem (hh ▸ hi))
    refine ⟨h0 :: l1', l2, setNext h p l2.head?, rfl, hal1, hal2, ?_, ?_, ?_,
      ?_, ?_⟩
    · simpa using hremove
    · exact (chainSeg_append (h0 :: l1') l2 (some h0) none).mpr
        ⟨l2.head?, hchain1, hchain2⟩
    · intro hh
      simp at hh
    · intro p' hp'
      rw [hplast] at hp'
      injection hp' with hp'eq
      subst hp'eq
      exact ⟨rfl, fun r hr => setNext_other h p r l2.head? hr⟩
    · intro r
      by_cases hr : r = p
      · subst hr
        rw [setNext_same]
        exact ⟨rfl, rfl, rfl⟩
      · rw [setNext_other h p r l2.head? hr]
        exact ⟨rfl, rfl, rfl⟩

/-! ### Conflict-predicate bridges -/

theorem not_both_read_iff (a b : Action) :
    ¬(a = Action.read ∧ b = Action.read) ↔
      (a = Action.modify ∨ b = Action.modify) := by
  cases a <;> cases b <;> simp

theorem conflictsAt_iff (h : Heap) (pointer : Nat) (action : Action)
    (c : RecId) :
    conflictsAt h pointer action c ↔
      ((h c).Pointer = some pointer ∧
        (action = Action.modify ∨ (h c).action = Action.modify)) := by
  unfold conflictsAt
  rw [not_both_read_iff]

theorem any_conflict_true {h : Heap} {pointer : Nat} {action : Action}
    {hl : List RecId}
    (hex : ∃ c ∈ hl, (h c).Pointer = some pointer ∧
      (action = Action.modify ∨ (h c).action = Action.modify)) :
    (hl.any fun c => decide (conflictsAt h pointer action c)) = true := by
  obtain ⟨c, hc, hcc⟩ := hex
  exact List.any_eq_true.mpr
    ⟨c, hc, decide_eq_true ((conflictsAt_iff h pointer action c).mpr hcc)⟩

theorem any_conflict_false {h : Heap} {pointer : Nat} {action : Action}
    {hl : List RecId}
    (hnc : ∀ c ∈ hl, ¬((h c).Pointer = some pointer ∧
      (action = Action.modify ∨ (h c).action = Action.modify))) :
    (hl.any fun c => decide (conflictsAt h pointer action c)) = false := by
  rw [← Bool.not_eq_true, List.any_eq_true]
  rintro ⟨c, hc, hdec⟩
  exact hnc c hc
    ((conflictsAt_iff h pointer action c).mp (of_decide_eq_true hdec))

/-! ### Claim theorems -/

/-- C2: for every access set and every insert with non-null pointer, insert
reports a conflict and terminates fatally iff some record `c` already in the
list has `c.Pointer` bitwise equal to `pointer` and at least one of the two
actions (the new access's or `c`'s) is Modify; in particular two overlapping
Read accesses to the same storage pointer never conflict. -/
theorem insert_conflict_iff (h : Heap) (H : Option RecId) (hl : List RecId)
    (acc : RecId) (pc pointer : Nat) (flags : ExclusivityFlags) (fuel : Nat)
    (hch : chainSeg h H hl none) (hfuel : hl.length ≤ fuel) :
    AccessSet.insert h H acc pc pointer flags fuel = RunResult.conflict ↔
      ∃ c ∈ hl, (h c).Pointer = some pointer ∧
        (getAccessAction flags = Action.modify ∨
          (h c).action = Action.modify) := by
  have hscan := @scanConflict_eq h pointer (getAccessAction flags) hl H fuel
    hch hfuel
  constructor
  · intro hconf
    by_contra hnex
    have hanyf := @any_conflict_false h pointer (getAccessAction flags) hl
      (fun c hc hcc => hnex ⟨c, hc, hcc⟩)
    rw [AccessSet.insert, hscan, hanyf] at hconf
    by_cases htr : isTracking flags = true <;> simp [htr] at hconf
  · intro hex
    have hanyt := @any_conflict_true h pointer (getAccessAction flags) hl hex
    rw [AccessSet.insert, hscan, hanyt]

/-- C5: a tracked, non-conflicting insert initializes the record with the
given pc, pointer and action, links it in front of the old head (LIFO), makes
it the new head and returns `true`; all previously listed records keep their
contents and their order. -/
theorem insert_tracked_front (h : Heap) (H : Option RecId) (hl : List RecId)
    (acc : RecId) (pc pointer : Nat) (flags : ExclusivityFlags) (fuel : Nat)
    (hch : chainSeg h H hl none) (hfuel : hl.length ≤ fuel)
    (hnc : ∀ c ∈ hl, ¬((h c).Pointer = some pointer ∧
      (getAccessAction flags = Action.modify ∨ (h c).action = Action.modify)))
    (htr : isTracking flags = true) (hfresh : acc ∉ hl) :
    AccessSet.insert h H acc pc pointer flags fuel =
      RunResult.ok
        (setRec h acc (Access.initRecord pc pointer H (getAccessAction flags)),
         some acc, true) ∧
    chainSeg
      (setRec h acc (Access.initRecord pc pointer H (getAccessAction flags)))
      (some acc) (acc :: hl) none ∧
    (∀ r, r ≠ acc →
      setRec h acc (Access.initRecord pc pointer H (getAccessAction flags)) r
        = h r) := by
  have hscan := @scanConflict_eq h pointer (getAccessAction flags) hl H fuel
    hch hfuel
  have hanyf := @any_conflict_false h pointer (getAccessAction flags) hl hnc
  refine ⟨?_, ?_, fun r hr => setRec_other h acc r _ hr⟩
  · rw [AccessSet.insert, hscan, hanyf]
    simp [htr]
  · refine ⟨rfl, ?_⟩
    rw [setRec_same]
    show chainSeg _ H hl none
    refine chainSeg_congr hl H none ?_ hch
    intro i hi
    exact setRec_other h acc i _ (fun hh => hfresh (hh ▸ hi))

/-- C6: with the nontracked bit set, insert still performs the conflict scan
(and terminates fatally on a conflict) but otherwise returns `false` without
modifying the access set; `begin_access` then stores null into the scratch
buffer's `Pointer`, and the subsequent `end_access` on that buffer returns
without modifying the thread's set. -/
theorem insert_nontracked_spec (h : Heap) (H : Option RecId) (hl : List RecId)
    (acc : RecId) (pc pointer retAddr : Nat) (pcArg : Option Nat)
    (flags : ExclusivityFlags) (fuel : Nat)
    (hch : chainSeg h H hl none) (hfuel : hl.length ≤ fuel)
    (htr : isTracking flags = false) (hfresh : acc ∉ hl) :
    ((∃ c ∈ hl, (h c).Pointer = some pointer ∧
        (getAccessAction flags = Action.modify ∨
          (h c).action = Action.modify)) →
      AccessSet.insert h H acc pc pointer flags fuel = RunResult.conflict) ∧
    ((∀ c ∈ hl, ¬((h c).Pointer = some pointer ∧
        (getAccessAction flags = Action.modify ∨
          (h c).action = Action.modify))) →
      AccessSet.insert h H acc pc pointer flags fuel =
        RunResult.ok (h, H, false) ∧
      swift_beginAccess false h H pointer acc flags pcArg retAddr fuel =
        RunResult.ok (updatePointer h acc none, H) ∧
      (updatePointer h acc none acc).Pointer = none ∧
      chainSeg (updatePointer h acc none) H hl none ∧
      swift_endAccess (updatePointer h acc none) H acc fuel =
        RunResult.ok (updatePointer h acc none, H)) := by
  have hscan := @scanConflict_eq h pointer (getAccessAction flags) hl H fuel
    hch hfuel
  constructor
  · intro hex
    rw [AccessSet.insert, hscan, @any_conflict_true h pointer _ hl hex]
  · intro hnc
    have hanyf := @any_conflict_false h pointer (getAccessAction flags) hl hnc
    have hins : AccessSet.insert h H acc (pcArg.getD retAddr) pointer flags
        fuel = RunResult.ok (h, H, false) := by
      rw [AccessSet.insert, hscan, hanyf]
      simp [htr]
    refine ⟨?_, ?_, ?_, ?_, ?_⟩
    · rw [AccessSet.insert, hscan, hanyf]
      simp [htr]
    · rw [swift_beginAccess]
      simp only [Bool.false_eq_true, if_false, hins]
    · simp [updatePointer, setRec]
    · refine chainSeg_congr hl H none ?_ hch
      intro i hi
      exact setRec_other h acc i _ (fun hh => hfresh (hh ▸ hi))
    · have hpnone : (updatePointer h acc none acc).Pointer = none := by
        simp [updatePointer, setRec]
      rw [swift_endAccess, hpnone]

/-- C7: with the process-wide exclusivity-disabled flag set, `begin_access`
stores null into the scratch buffer's `Pointer` and returns immediately:
no scan, no insertion, no other record touched, and the thread's head is
unchanged; the corresponding `end_access`, seeing the null `Pointer`,
returns without modifying any state. -/
theorem beginAccess_disabled_noop (h : Heap) (H : Option RecId)
    (pointer : Nat) (buffer : RecId) (flags : ExclusivityFlags)
    (pcArg : Option Nat) (retAddr : Nat) (fuel : Nat) :
    swift_beginAccess true h H pointer buffer flags pcArg retAddr fuel =
      RunResult.ok (updatePointer h buffer none, H) ∧
    (updatePointer h buffer none buffer).Pointer = none ∧
    (∀ r, r ≠ buffer → updatePointer h buffer none r = h r) ∧
    swift_endAccess (updatePointer h buffer none) H buffer fuel =
      RunResult.ok (updatePointer h buffer none, H) := by
  have hpnone : (updatePointer h buffer none buffer).Pointer = none := by
    simp [updatePointer, setRec]
  refine ⟨?_, hpnone, ?_, ?_⟩
  · rw [swift_beginAccess]
    simp
  · intro r hr
    exact setRec_other h buffer r _ hr
  · rw [swift_endAccess, hpnone]

/-- C3: a push with `TBegin` and the thread head both non-null (cases 7,8)
is exactly: the thread head becomes `TBegin`, the saved tail `TEnd`'s next
link is set to the old head, `TBegin` is set to the old head (the pivot),
`TEnd` to null; no other record's link is modified. -/
theorem enter_splice_nonempty (h : Heap) (h0 b e : RecId) (t : TaskCtx)
    (htb : t.TBegin = some b) (hte : t.TEnd = some e) :
    swift_task_enterThreadLocalContext h (some h0) t =
      RunResult.ok (setNext h e (some h0), some b, ⟨some h0, none⟩) ∧
    (setNext h e (some h0) e).next = some h0 ∧
    (∀ r, r ≠ e → setNext h e (some h0) r = h r) := by
  refine ⟨?_, ?_, fun r hr => setNext_other h e r _ hr⟩
  · rw [swift_task_enterThreadLocalContext, htb, hte]
  · rw [setNext_same]

/-- Shared helper: `findParentAccess` on a chain `hd :: hl'` whose member
`ob` is not the head returns the node immediately preceding `ob`. -/
theorem findParent_in_chain (h : Heap) (hd : RecId) (hl' : List RecId)
    (ob : RecId) (fuel : Nat)
    (hch : chainSeg h (some hd) (hd :: hl') none) (hob : ob ∈ hl')
    (hfuel : (hd :: hl').length ≤ fuel) :
    ∃ s' t2, hl' = s' ++ ob :: t2 ∧ ob ∉ s' ∧
      AccessSet.findParentAccess h (some hd) ob fuel =
        RunResult.ok (some (s'.getLastD hd)) := by
  have hnd := chainSeg_nodup (hd :: hl') (some hd) hch
  obtain ⟨s', t2, rfl⟩ := List.append_of_mem hob
  have hobs : ob ∉ s' :=
    (nodup_middle_split (List.nodup_cons.mp hnd).2 rfl).1
  obtain ⟨m, hs, ht⟩ :=
    (chainSeg_append s' (ob :: t2) (h hd).next none).mp hch.2
  have hm : m = some ob := ht.1
  subst hm
  refine ⟨s', t2, rfl, hobs, ?_⟩
  rw [AccessSet.findParentAccess]
  exact @findParentLoop_hit h ob s' hd (h hd).next fuel hs hobs
    (by simp [List.length_append] at hfuel ⊢; omega)

/-- C9 counterexample: on the empty access set (null head), the source's
`findParentAccess` starts with `cur = Head; for (cur = cur->getNext(); ...)`
and dereferences the null head instead of returning null. -/
theorem findParent_empty_deref :
    AccessSet.findParentAccess (fun _ => Access.mk none 0 none Action.read)
        none 5 100 = RunResult.ub ∧
    RunResult.ub ≠ RunResult.ok (none : Option RecId) := by
  exact ⟨rfl, by decide⟩

/-- C9 (amended): for every access set with a non-null head, `findParentAccess`
returns null when the queried record is the head, and the predecessor node
when the record is elsewhere in the list; on the empty set the walk
dereferences the null head instead. -/
theorem findParent_nonempty_spec (h : Heap) (hd : RecId) (hl : List RecId)
    (child : RecId) (fuel : Nat)
    (hch : chainSeg h (some hd) hl none) (hfuel : hl.length ≤ fuel) :
    (child = hd → AccessSet.findParentAccess h (some hd) child fuel =
      RunResult.ok none) ∧
    (child ∈ hl → child ≠ hd →
      ∃ s t2 p, hl = s ++ child :: t2 ∧ s.getLast? = some p ∧
        AccessSet.findParentAccess h (some hd) child fuel =
          RunResult.ok (some p)) := by
  cases hl with
  | nil => exact absurd hch (by simp [chainSeg])
  | cons d hl' =>
    have hd_eq : d = hd := by
      have := hch.1
      injection this with hh
      exact hh.symm
    subst hd_eq
    constructor
    · intro hcd
      subst hcd
      have hnd := chainSeg_nodup (child :: hl') (some child) hch
      rw [AccessSet.findParentAccess]
      exact @findParentLoop_miss h child hl' child (h child).next fuel hch.2
        (List.nodup_cons.mp hnd).1 (by simp at hfuel ⊢; omega)
    · intro hmem hne
      have hob : child ∈ hl' := by
        rcases List.mem_cons.mp hmem with hh | hh
        · exact absurd hh hne
        · exact hh
      obtain ⟨s', t2, rfl, hobs, hfp⟩ :=
        findParent_in_chain h d hl' child fuel hch hob hfuel
      exact ⟨d :: s', t2, s'.getLastD d, rfl,
        getLastD_cons_eq_getLast? d s', hfp⟩

/-- C8: `remove(record)`, when the record is on the set, unlinks exactly that
record: the head case replaces the head by the record's next; otherwise the
walk finds the predecessor and redirects its next link past the record,
leaving every other record untouched; the end-of-list branch is never
reached, and the remaining records keep their relative order. -/
theorem remove_unlinks (h : Heap) (H : Option RecId) (hl : List RecId)
    (a : RecId) (fuel : Nat)
    (hch : chainSeg h H hl none) (hmem : a ∈ hl) (hfuel : hl.length ≤ fuel) :
    ∃ l1 l2, hl = l1 ++ a :: l2 ∧ a ∉ l1 ∧ a ∉ l2 ∧
      (l1 = [] → AccessSet.remove h H a fuel = RunResult.ok (h, l2.head?)) ∧
      (∀ p, l1.getLast? = some p →
        AccessSet.remove h H a fuel =
          RunResult.ok (setNext h p l2.head?, H) ∧
        (∀ r, r ≠ p → setNext h p l2.head? r = h r)) ∧
      (∀ h' H', AccessSet.remove h H a fuel = RunResult.ok (h', H') →
        chainSeg h' H' (l1 ++ l2) none) := by
  obtain ⟨l1, l2, h', hsplit, h1, h2, hrem, hchain, hhead, hpred, _⟩ :=
    remove_master h H hl a fuel hch hmem hfuel
  have hH : H = (l1 ++ a :: l2).head? := hsplit ▸ chainSeg_next_head hch
  refine ⟨l1, l2, hsplit, h1, h2, ?_, ?_, ?_⟩
  · intro hl1
    subst hl1
    rw [hrem, hhead rfl]
    simp
  · intro p hp
    obtain ⟨hp1, hp2⟩ := hpred p hp
    have hl1ne : l1 ≠ [] := by
      intro hh
      subst hh
      simp at hp
    obtain ⟨h0, l1', rfl⟩ := List.exists_cons_of_ne_nil hl1ne
    have hHh : H = some h0 := by
      rw [hH]
      rfl
    constructor
    · rw [hrem, ← hp1, hHh]
      rfl
    · intro r hr
      rw [← hp1]
      exact hp2 r hr
  · intro hh HH heq
    rw [hrem] at heq
    injection heq with heq2
    have hh1 : h' = hh := congrArg Prod.fst heq2
    have hh2 : (l1 ++ l2).head? = HH := congrArg Prod.snd heq2
    subst hh1
    subst hh2
    exact hchain

/-- C10: `end_access` of a tracked access (non-null buffer `Pointer`)
removes the record from the thread's list but leaves the scratch buffer's
own `Pointer`, `PC` and action fields unchanged; in particular the `Pointer`
stays non-null after removal, so the untracked encoding (null `Pointer`) is
written only at begin time, never by removal. -/
theorem endAccess_tracked_frame (h : Heap) (H : Option RecId)
    (hl : List RecId) (buffer : RecId) (pt : Nat) (fuel : Nat)
    (hch : chainSeg h H hl none) (hp : (h buffer).Pointer = some pt)
    (hmem : buffer ∈ hl) (hfuel : hl.length ≤ fuel) :
    ∃ h' H' l1 l2,
      swift_endAccess h H buffer fuel = RunResult.ok (h', H') ∧
      (h' buffer).Pointer = some pt ∧
      (h' buffer).PC = (h buffer).PC ∧
      (h' buffer).action = (h buffer).action ∧
      hl = l1 ++ buffer :: l2 ∧ buffer ∉ l1 ++ l2 ∧
      chainSeg h' H' (l1 ++ l2) none := by
  obtain ⟨l1, l2, h', hsplit, h1, h2, hrem, hchain, _, _, hfields⟩ :=
    remove_master h H hl buffer fuel hch hmem hfuel
  refine ⟨h', (l1 ++ l2).head?, l1, l2, ?_, ?_, (hfields buffer).2.1,
    (hfields buffer).2.2, hsplit, ?_, hchain⟩
  · rw [swift_endAccess, hp]
    exact hrem
  · rw [(hfields buffer).1]
    exact hp
  · intro hmem'
    rcases List.mem_append.mp hmem' with hh | hh
    · exact h1 hh
    · exact h2 hh

/-- C4: on pop with the stashed pivot `TBegin` non-null: if the thread head
equals the pivot, pop clears the span to `(null, null)` and leaves the heap
and the thread head unchanged (case 3); if the head differs, pop sets the
thread head to the pivot, nulls the next link of the pivot's predecessor
(found via `findParentAccess`), and stores the old thread head in `TBegin`
and that predecessor in `TEnd` (cases 4,7,8). -/
theorem exit_pivot_cases (h : Heap) (H : Option RecId) (hl : List RecId)
    (ob : RecId) (t : TaskCtx) (fuel : Nat)
    (hch : chainSeg h H hl none) (htb : t.TBegin = some ob)
    (hfuel : hl.length ≤ fuel) :
    (H = some ob → swift_task_exitThreadLocalContext h H t fuel =
      RunResult.ok (h, H, ⟨none, none⟩)) ∧
    (H ≠ some ob → ob ∈ hl →
      ∃ s t2 p, hl = s ++ ob :: t2 ∧ s.getLast? = some p ∧
        swift_task_exitThreadLocalContext h H t fuel =
          RunResult.ok (setNext h p none, some ob, ⟨H, some p⟩)) := by
  constructor
  · intro hH
    obtain ⟨tb, te⟩ := t
    have htb' : tb = some ob := htb
    subst htb'
    simp [swift_task_exitThreadLocalContext, hH]
  · intro hne hmem
    cases hl with
    | nil => exact absurd hmem (by simp)
    | cons hd hl' =>
      have hH : H = some hd := hch.1
      subst hH
      have hob : ob ∈ hl' := by
        rcases List.mem_cons.mp hmem with hh | hh
        · exact absurd (hh ▸ rfl) hne
        · exact hh
      obtain ⟨s', t2, rfl, hobs, hfp⟩ :=
        findParent_in_chain h hd hl' ob fuel hch hob hfuel
      refine ⟨hd :: s', t2, s'.getLastD hd, rfl,
        getLastD_cons_eq_getLast? hd s', ?_⟩
      obtain ⟨tb, te⟩ := t
      have htb' : tb = some ob := htb
      subst htb'
      simp [swift_task_exitThreadLocalContext, hne, hfp]

/-- C1: for every well-formed thread access-set head and task saved span
`(TBegin, TEnd)`, a push (`swift_task_enterThreadLocalContext`) followed
immediately by a pop (`swift_task_exitThreadLocalContext`) with no
intervening begin/end restores the heap, the thread's set head and the
task's span to exactly their pre-push values, in all eight cases of the
push/pop case table. -/
theorem pushPop_roundtrip (h : Heap) (H : Option RecId) (t : TaskCtx)
    (hl tl : List RecId) (fuel : Nat)
    (hth : chainSeg h H hl none) (hta : taskWF h t tl)
    (hdisj : ∀ x ∈ tl, x ∉ hl)
    (hfuel : hl.length + tl.length ≤ fuel) :
    ∃ h1 H1 t1,
      swift_task_enterThreadLocalContext h H t = RunResult.ok (h1, H1, t1) ∧
      swift_task_exitThreadLocalContext h1 H1 t1 fuel =
        RunResult.ok (h, H, t) := by
  obtain ⟨tb, te⟩ := t
  rcases hta with ⟨htl, htb, hte⟩ | ⟨htlne, htb, hte, htch⟩
  · have htb' : tb = none := htb
    have hte' : te = none := hte
    subst htb'
    subst hte'
    subst htl
    cases H with
    | none => exact ⟨h, none, ⟨none, none⟩, rfl, rfl⟩
    | some hd =>
      refine ⟨h, some hd, ⟨some hd, none⟩, rfl, ?_⟩
      simp [swift_task_exitThreadLocalContext]
  · cases tl with
    | nil => exact absurd rfl htlne
    | cons b tl' =>
      have htb' : tb = some b := htb
      subst htb'
      have hte2 : te = some (tl'.getLastD b) := by
        have : te = (b :: tl').getLast? := hte
        rw [this]
        exact getLastD_cons_eq_getLast? b tl'
      subst hte2
      have htch' : chainSeg h (some b) (b :: tl') none := htch
      have helast : (b :: tl').getLast? = some (tl'.getLastD b) :=
        getLastD_cons_eq_getLast? b tl'
      have hnone : (h (tl'.getLastD b)).next = none :=
        chainSeg_last_next (b :: tl') (some b) none _ htch' helast
      cases hl with
      | nil =>
        have hH : H = none := hth
        subst hH
        have hfu : (b :: tl').length ≤ fuel := by
          simp at hfuel ⊢
          omega
        have htail := @getTailLoop_ok h tl' b fuel htch' hfu
        refine ⟨h, some b, ⟨none, none⟩, rfl, ?_⟩
        simp [swift_task_exitThreadLocalContext, htail]
      | cons hd hl' =>
        have hH : H = some hd := hth.1
        subst hH
        have hbhd : b ≠ hd := by
          intro hh
          exact hdisj b (List.mem_cons_self b tl')
            (hh ▸ List.mem_cons_self hd hl')
        have hndtl := chainSeg_nodup (b :: tl') (some b) htch'
        have htch1 : chainSeg (setNext h (tl'.getLastD b) (some hd))
            (some b) (b :: tl') (some hd) :=
          chainSeg_setNext_last (b :: tl') (some b) none _ (some hd)
            htch' helast hndtl
        have hhdtl' : hd ∉ tl' := fun hm =>
          hdisj hd (List.mem_cons_of_mem _ hm) (List.mem_cons_self hd hl')
        have hfu : tl'.length + 1 ≤ fuel := by
          simp at hfuel ⊢
          omega
        have hfp : AccessSet.findParentAccess
            (setNext h (tl'.getLastD b) (some hd)) (some b) hd fuel =
            RunResult.ok (some (tl'.getLastD b)) := by
          rw [AccessSet.findParentAccess]
          have hloop := @findParentLoop_hit
            (setNext h (tl'.getLastD b) (some hd)) hd tl' b
            ((setNext h (tl'.getLastD b) (some hd)) b).next fuel
            htch1.2 hhdtl' hfu
          rw [hloop]
        have hheap : setNext (setNext h (tl'.getLastD b) (some hd))
            (tl'.getLastD b) none = h := by
          rw [setNext_setNext, ← hnone]
          exact setNext_cancel h _
        refine ⟨setNext h (tl'.getLastD b) (some hd), some b,
          ⟨some hd, none⟩, rfl, ?_⟩
        simp only [swift_task_exitThreadLocalContext, hfp, hheap,
          Option.some.injEq, if_neg hbhd]

/-! ### Concrete example states for witnesses -/

/-- A heap with the three-record chain `1 → 2 → 3`. -/
def exHeap : Heap := fun i =>
  if i = 1 then
    { Pointer := some 100, PC := 11, next := some 2, action := Action.read }
  else if i = 2 then
    { Pointer := some 200, PC := 12, next := some 3, action := Action.read }
  else if i = 3 then
    { Pointer := some 300, PC := 13, next := none, action := Action.modify }
  else
    { Pointer := none, PC := 0, next := none, action := Action.read }

/-- A heap with the thread chain `[1]` and the task chain `2 → 3`. -/
def exHeap2 : Heap := fun i =>
  if i = 1 then
    { Pointer := some 100, PC := 1, next := none, action := Action.read }
  else if i = 2 then
    { Pointer := some 200, PC := 2, next := some 3, action := Action.read }
  else if i = 3 then
    { Pointer := some 300, PC := 3, next := none, action := Action.modify }
  else
    { Pointer := none, PC := 0, next := none, action := Action.read }

theorem pushPop_roundtrip_witness :
    chainSeg exHeap2 (some 1) [1] none ∧
    taskWF exHeap2 ⟨some 2, some 3⟩ [2, 3] ∧
    (∀ x ∈ ([2, 3] : List RecId), x ∉ ([1] : List RecId)) ∧
    ([1] : List RecId).length + ([2, 3] : List RecId).length ≤ 9 ∧
    (∃ h1 H1 t1,
      swift_task_enterThreadLocalContext exHeap2 (some 1) ⟨some 2, some 3⟩ =
        RunResult.ok (h1, H1, t1) ∧
      swift_task_exitThreadLocalContext h1 H1 t1 9 =
        RunResult.ok (exHeap2, some 1, ⟨some 2, some 3⟩)) :=
  ⟨by decide, by decide, by decide, by decide,
    pushPop_roundtrip exHeap2 (some 1) ⟨some 2, some 3⟩ [1] [2, 3] 9
      (by decide) (by decide) (by decide) (by decide)⟩

theorem insert_conflict_iff_witness :
    chainSeg exHeap (some 1) [1, 2, 3] none ∧
    ([1, 2, 3] : List RecId).length ≤ 5 ∧
    (AccessSet.insert exHeap (some 1) 9 77 300 ⟨Action.read, true⟩ 5 =
        RunResult.conflict ↔
      ∃ c ∈ ([1, 2, 3] : List RecId), (exHeap c).Pointer = some 300 ∧
        (getAccessAction ⟨Action.read, true⟩ = Action.modify ∨
          (exHeap c).action = Action.modify)) :=
  ⟨by decide, by decide,
    insert_conflict_iff exHeap (some 1) [1, 2, 3] 9 77 300
      ⟨Action.read, true⟩ 5 (by decide) (by decide)⟩

theorem enter_splice_nonempty_witness :
    (⟨some 5, some 6⟩ : TaskCtx).TBegin = some 5 ∧
    (⟨some 5, some 6⟩ : TaskCtx).TEnd = some 6 ∧
    (swift_task_enterThreadLocalContext exHeap (some 1) ⟨some 5, some 6⟩ =
      RunResult.ok (setNext exHeap 6 (some 1), some 5, ⟨some 1, none⟩) ∧
    (setNext exHeap 6 (some 1) 6).next = some 1 ∧
    (∀ r, r ≠ 6 → setNext exHeap 6 (some 1) r = exHeap r)) :=
  ⟨rfl, rfl, enter_splice_nonempty exHeap 1 5 6 ⟨some 5, some 6⟩ rfl rfl⟩

theorem exit_pivot_cases_witness :
    chainSeg exHeap (some 1) [1, 2, 3] none ∧
    (⟨some 2, none⟩ : TaskCtx).TBegin = some 2 ∧
    ([1, 2, 3] : List RecId).length ≤ 9 ∧
    ((some 1 = some 2 →
      swift_task_exitThreadLocalContext exHeap (some 1) ⟨some 2, none⟩ 9 =
        RunResult.ok (exHeap, some 1, ⟨none, none⟩)) ∧
    (some 1 ≠ some 2 → 2 ∈ ([1, 2, 3] : List RecId) →
      ∃ s t2 p, ([1, 2, 3] : List RecId) = s ++ 2 :: t2 ∧
        s.getLast? = some p ∧
        swift_task_exitThreadLocalContext exHeap (some 1) ⟨some 2, none⟩ 9 =
          RunResult.ok (setNext exHeap p none, some 2, ⟨some 1, some p⟩))) :=
  ⟨by decide, rfl, by decide,
    exit_pivot_cases exHeap (some 1) [1, 2, 3] 2 ⟨some 2, none⟩ 9
      (by decide) rfl (by decide)⟩

theorem insert_tracked_front_witness :
    chainSeg exHeap (some 1) [1, 2, 3] none ∧
    ([1, 2, 3] : List RecId).length ≤ 5 ∧
    (∀ c ∈ ([1, 2, 3] : List RecId), ¬((exHeap c).Pointer = some 400 ∧
      (getAccessAction ⟨Action.modify, true⟩ = Action.modify ∨
        (exHeap c).action = Action.modify))) ∧
    isTracking ⟨Action.modify, true⟩ = true ∧
    (9 : RecId) ∉ ([1, 2, 3] : List RecId) ∧
    (AccessSet.insert exHeap (some 1) 9 77 400 ⟨Action.modify, true⟩ 5 =
      RunResult.ok
        (setRec exHeap 9
          (Access.initRecord 77 400 (some 1)
            (getAccessAction ⟨Action.modify, true⟩)),
         some 9, true) ∧
    chainSeg
      (setRec exHeap 9
        (Access.initRecord 77 400 (some 1)
          (getAccessAction ⟨Action.modify, true⟩)))
      (some 9) (9 :: [1, 2, 3]) none ∧
    (∀ r, r ≠ 9 →
      setRec exHeap 9
        (Access.initRecord 77 400 (some 1)
          (getAccessAction ⟨Action.modify, true⟩)) r = exHeap r)) :=
  ⟨by decide, by decide, by decide, rfl, by decide,
    insert_tracked_front exHeap (some 1) [1, 2, 3] 9 77 400
      ⟨Action.modify, true⟩ 5 (by decide) (by decide) (by decide) rfl
      (by decide)⟩

theorem insert_nontracked_spec_witness :
    chainSeg exHeap (some 1) [1, 2, 3] none ∧
    ([1, 2, 3] : List RecId).length ≤ 5 ∧
    isTracking ⟨Action.modify, false⟩ = false ∧
    (9 : RecId) ∉ ([1, 2, 3] : List RecId) ∧
    (((∃ c ∈ ([1, 2, 3] : List RecId), (exHeap c).Pointer = some 400 ∧
        (getAccessAction ⟨Action.modify, false⟩ = Action.modify ∨
          (exHeap c).action = Action.modify)) →
      AccessSet.insert exHeap (some 1) 9 77 400 ⟨Action.modify, false⟩ 5 =
        RunResult.conflict) ∧
    ((∀ c ∈ ([1, 2, 3] : List RecId), ¬((exHeap c).Pointer = some 400 ∧
        (getAccessAction ⟨Action.modify, false⟩ = Action.modify ∨
          (exHeap c).action = Action.modify))) →
      AccessSet.insert exHeap (some 1) 9 77 400 ⟨Action.modify, false⟩ 5 =
        RunResult.ok (exHeap, some 1, false) ∧
      swift_beginAccess false exHeap (some 1) 400 9 ⟨Action.modify, false⟩
          (some 77) 88 5 =
        RunResult.ok (updatePointer exHeap 9 none, some 1) ∧
      (updatePointer exHeap 9 none 9).Pointer = none ∧
      chainSeg (updatePointer exHeap 9 none) (some 1) [1, 2, 3] none ∧
      swift_endAccess (updatePointer exHeap 9 none) (some 1) 9 5 =
        RunResult.ok (updatePointer exHeap 9 none, some 1))) :=
  ⟨by decide, by decide, rfl, by decide,
    insert_nontracked_spec exHeap (some 1) [1, 2, 3] 9 77 400 88 (some 77)
      ⟨Action.modify, false⟩ 5 (by decide) (by decide) rfl (by decide)⟩

theorem remove_unlinks_witness :
    chainSeg exHeap (some 1) [1, 2, 3] none ∧
    (2 : RecId) ∈ ([1, 2, 3] : List RecId) ∧
    ([1, 2, 3] : List RecId).length ≤ 9 ∧
    (∃ l1 l2, ([1, 2, 3] : List RecId) = l1 ++ 2 :: l2 ∧
      (2 : RecId) ∉ l1 ∧ (2 : RecId) ∉ l2 ∧
      (l1 = [] → AccessSet.remove exHeap (some 1) 2 9 =
        RunResult.ok (exHeap, l2.head?)) ∧
      (∀ p, l1.getLast? = some p →
        AccessSet.remove exHeap (some 1) 2 9 =
          RunResult.ok (setNext exHeap p l2.head?, some 1) ∧
        (∀ r, r ≠ p → setNext exHeap p l2.head? r = exHeap r)) ∧
      (∀ h' H', AccessSet.remove exHeap (some 1) 2 9 =
          RunResult.ok (h', H') →
        chainSeg h' H' (l1 ++ l2) none)) :=
  ⟨by decide, by decide, by decide,
    remove_unlinks exHeap (some 1) [1, 2, 3] 2 9 (by decide) (by decide)
      (by decide)⟩

theorem findParent_nonempty_spec_witness :
    chainSeg exHeap (some 1) [1, 2, 3] none ∧
    ([1, 2, 3] : List RecId).length ≤ 9 ∧
    ((3 = 1 → AccessSet.findParentAccess exHeap (some 1) 3 9 =
      RunResult.ok none) ∧
    ((3 : RecId) ∈ ([1, 2, 3] : List RecId) → (3 : RecId) ≠ 1 →
      ∃ s t2 p, ([1, 2, 3] : List RecId) = s ++ 3 :: t2 ∧
        s.getLast? = some p ∧
        AccessSet.findParentAccess exHeap (some 1) 3 9 =
          RunResult.ok (some p))) :=
  ⟨by decide, by decide,
    findParent_nonempty_spec exHeap 1 [1, 2, 3] 3 9 (by decide) (by decide)⟩

theorem endAccess_tracked_frame_witness :
    chainSeg exHeap (some 1) [1, 2, 3] none ∧
    (exHeap 2).Pointer = some 200 ∧
    (2 : RecId) ∈ ([1, 2, 3] : List RecId) ∧
    ([1, 2, 3] : List RecId).length ≤ 9 ∧
    (∃ h' H' l1 l2,
      swift_endAccess exHeap (some 1) 2 9 = RunResult.ok (h', H') ∧
      (h' 2).Pointer = some 200 ∧
      (h' 2).PC = (exHeap 2).PC ∧
      (h' 2).action = (exHeap 2).action ∧
      ([1, 2, 3] : List RecId) = l1 ++ 2 :: l2 ∧ (2 : RecId) ∉ l1 ++ l2 ∧
      chainSeg h' H' (l1 ++ l2) none) :=
  ⟨by decide, by decide, by decide, by decide,
    endAccess_tracked_frame exHeap (some 1) [1, 2, 3] 2 200 9 (by decide)
      (by decide) (by decide) (by decide)⟩

end SwiftExclusivity
